import Mathlib

/-!
Verification of the `use-key-match` accelerator-matching core.

The embedding models strings as `List Char` and mirrors, operation by
operation, the JavaScript source: `String.prototype.split('+')`,
`split(/or/i)`, `replace(/pat/gi, repl)`, `replace(/pat/g, repl)`,
`trim`, `toLowerCase`, `toUpperCase`, and plain-object table lookup.
Fallible parsing is modelled with `Except`, the thrown `Error` message
being the carried `List Char`.  The ambient platform query
(`getIsMacOS`) is threaded explicitly as a `Bool` / an explicit
environment value.
-/

set_option maxHeartbeats 1000000

/-- JavaScript `toLowerCase`, restricted to the ASCII range that the
program's comparisons ever exercise. -/
def toLowerL (l : List Char) : List Char := l.map Char.toLower

/-- JavaScript `toUpperCase` (ASCII range). -/
def toUpperL (l : List Char) : List Char := l.map Char.toUpper

/-- Whitespace characters removed by JavaScript `String.prototype.trim`. -/
def isJsWhite (c : Char) : Bool :=
  c = ' ' || c = '\t' || c = '\n' || c = '\r' || c = '\x0b' ||
    c = '\x0c' || c = '\u00A0' || c = '\uFEFF'

/-- JavaScript `String.prototype.trim`: drop whitespace from both ends. -/
def trimChars (l : List Char) : List Char :=
  ((l.dropWhile isJsWhite).reverse.dropWhile isJsWhite).reverse

/-- If `s` starts, case-insensitively, with `pat` (given lowercased),
return the remainder of `s`. -/
def lowersTo : List Char → List Char → Option (List Char)
  | [], s => some s
  | _ :: _, [] => none
  | p :: ps, c :: cs => if c.toLower = p then lowersTo ps cs else none

/-- If `s` starts with `pat` (exact match), return the remainder. -/
def stripPre : List Char → List Char → Option (List Char)
  | [], s => some s
  | _ :: _, [] => none
  | p :: ps, c :: cs => if c = p then stripPre ps cs else none

/-- Fuel-indexed scan underlying `replaceCI`.  The fuel is structural;
it never runs out when initialized with the input length, because the
remainder after a match is strictly shorter than the scanned list. -/
def replaceCIAux (p : Char) (ps repl : List Char) : Nat → List Char → List Char
  | _, [] => []
  | 0, l => l
  | fuel + 1, c :: cs =>
    match lowersTo (p :: ps) (c :: cs) with
    | some rest => repl ++ replaceCIAux p ps repl fuel rest
    | none => c :: replaceCIAux p ps repl fuel cs

/-- JavaScript `replace(/pat/gi, repl)` for a fixed non-empty lowercase
pattern `p :: ps`: scan left to right, replacing every (non-overlapping,
leftmost) case-insensitive occurrence. -/
def replaceCI (p : Char) (ps repl : List Char) (l : List Char) : List Char :=
  replaceCIAux p ps repl l.length l

/-- Fuel-indexed scan underlying `replaceCS`. -/
def replaceCSAux (p : Char) (ps repl : List Char) : Nat → List Char → List Char
  | _, [] => []
  | 0, l => l
  | fuel + 1, c :: cs =>
    match stripPre (p :: ps) (c :: cs) with
    | some rest => repl ++ replaceCSAux p ps repl fuel rest
    | none => c :: replaceCSAux p ps repl fuel cs

/-- JavaScript `replace(/pat/g, repl)` for a fixed non-empty pattern
`p :: ps`: case-sensitive global replacement. -/
def replaceCS (p : Char) (ps repl : List Char) (l : List Char) : List Char :=
  replaceCSAux p ps repl l.length l

/-- JavaScript `split(/or/i)`: cut at every leftmost, non-overlapping
case-insensitive occurrence of the two-character pattern `or`,
accumulating the current piece in reverse in `acc`. -/
def splitOrAux : List Char → List Char → List (List Char)
  | [], acc => [acc.reverse]
  | [c], acc => [(c :: acc).reverse]
  | c1 :: c2 :: rest, acc =>
    if c1.toLower = 'o' ∧ c2.toLower = 'r' then
      acc.reverse :: splitOrAux rest []
    else
      splitOrAux (c2 :: rest) (c1 :: acc)

/-- `processedString.split(/or/i)` from the source. -/
def splitCIor (s : List Char) : List (List Char) := splitOrAux s []

/-- JavaScript `split('+')`: cut at every `'+'`, keeping empty pieces. -/
def splitPlus : List Char → List (List Char)
  | [] => [[]]
  | c :: cs =>
    match splitPlus cs with
    | [] => [[]]
    | p :: ps => if c = '+' then [] :: p :: ps else (c :: p) :: ps

/-- Case-insensitive startsWith test. -/
def startsWithCI (pat l : List Char) : Bool := (lowersTo pat l).isSome

/-- Case-sensitive startsWith test. -/
def startsWithCS (pat l : List Char) : Bool := (stripPre pat l).isSome

/-- Case-insensitive substring-containment test (pattern given lowercased). -/
def containsCI (pat : List Char) : List Char → Bool
  | [] => startsWithCI pat []
  | c :: cs => startsWithCI pat (c :: cs) || containsCI pat cs

/-- Case-sensitive substring-containment test. -/
def containsCS (pat : List Char) : List Char → Bool
  | [] => startsWithCS pat []
  | c :: cs => startsWithCS pat (c :: cs) || containsCS pat cs

/-! ## The resolved modifier flags (`parseModifiers`) -/

/-- The four boolean modifier flags produced by `parseModifiers`. -/
structure ModFlags where
  ctrl : Bool
  alt : Bool
  shift : Bool
  meta : Bool
deriving DecidableEq, Repr

/-- One iteration of the `switch` statement inside `parseModifiers`. -/
def applyModifier (isMac : Bool) (m : ModFlags) (tok : List Char) : ModFlags :=
  if tok = "cmd".data ∨ tok = "command".data then { m with meta := true }
  else if tok = "ctrl".data ∨ tok = "control".data then { m with ctrl := true }
  else if tok = "cmdorctrl".data ∨ tok = "commandorcontrol".data then
    if isMac then { m with meta := true } else { m with ctrl := true }
  else if tok = "alt".data then { m with alt := true }
  else if tok = "option".data then
    if isMac then { m with alt := true } else m
  else if tok = "shift".data then { m with shift := true }
  else if tok = "meta".data ∨ tok = "super".data then { m with meta := true }
  else m

/-- `parseModifiers` from the source: fold the `switch` over the token
list, starting from all-false flags. -/
def parseModifiers (isMac : Bool) (modParts : List (List Char)) : ModFlags :=
  modParts.foldl (applyModifier isMac) ⟨false, false, false, false⟩

/-! ## Pattern parsing -/

/-- The parsed accelerator record `{ctrl, alt, shift, meta, keys}`. -/
structure KeyPattern where
  ctrl : Bool
  alt : Bool
  shift : Bool
  meta : Bool
  keys : List (List Char)
deriving DecidableEq, Repr

deriving instance DecidableEq for Except

/-- The message of the `Invalid accelerator` error. -/
def invalidMsg (s : List Char) : List Char := "Invalid accelerator: ".data ++ s

/-- `parseSingleKeyMatch` from the source: split the fragment on `'+'`,
the last segment (lowercased) is the key, the rest are modifier tokens. -/
def parseSingleKeyMatch (isMac : Bool) (matchString : List Char) :
    Except (List Char) KeyPattern :=
  let parts := splitPlus matchString
  let key := toLowerL (parts.getLastD [])
  if key = [] then .error (invalidMsg matchString)
  else
    let modifierParts := parts.dropLast.map toLowerL
    let m := parseModifiers isMac modifierParts
    .ok ⟨m.ctrl, m.alt, m.shift, m.meta, [key]⟩

/-- The loop body of `parseMultipleKeyMatch`: `keys` and `modifiers`
accumulate, `first` tracks the `firstCombination` flag. -/
def parseMultipleAux (isMac : Bool) :
    List (List Char) → List (List Char) → ModFlags → Bool →
    Except (List Char) KeyPattern
  | [], keys, m, _ => .ok ⟨m.ctrl, m.alt, m.shift, m.meta, keys⟩
  | a :: rest, keys, m, first =>
    let t := trimChars a
    let parts := splitPlus t
    let key := toLowerL (parts.getLastD [])
    if key = [] then .error (invalidMsg t)
    else
      let m' := if first then parseModifiers isMac (parts.dropLast.map toLowerL) else m
      parseMultipleAux isMac rest (keys ++ [key]) m' false

/-- `parseMultipleKeyMatch` from the source. -/
def parseMultipleKeyMatch (isMac : Bool) (keyAlternatives : List (List Char)) :
    Except (List Char) KeyPattern :=
  parseMultipleAux isMac keyAlternatives [] ⟨false, false, false, false⟩ true

/-- The placeholder-protection step of `parseMatchString`:
`replace(/cmdorctrl/gi, '__CMDCTRL__')` then
`replace(/commandorcontrol/gi, '__COMMANDCONTROL__')`. -/
def protectAliases (s : List Char) : List Char :=
  replaceCI 'c' "ommandorcontrol".data "__COMMANDCONTROL__".data
    (replaceCI 'c' "mdorctrl".data "__CMDCTRL__".data s)

/-- The placeholder-restoration step of `parseMatchString`:
`replace(/__CMDCTRL__/g, 'cmdorctrl')` then
`replace(/__COMMANDCONTROL__/g, 'commandorcontrol')`. -/
def restoreAliases (s : List Char) : List Char :=
  replaceCS '_' "_COMMANDCONTROL__".data "commandorcontrol".data
    (replaceCS '_' "_CMDCTRL__".data "cmdorctrl".data s)

/-- The restored alternative fragments computed by `parseMatchString`
before dispatching to the single/multiple parsers. -/
def fragmentsOf (s : List Char) : List (List Char) :=
  (splitCIor (protectAliases s)).map restoreAliases

/-- `parseMatchString` from the source. -/
def parseMatchString (isMac : Bool) (matchString : List Char) :
    Except (List Char) KeyPattern :=
  if trimChars matchString = [] then
    .ok ⟨false, false, false, false, [[]]⟩
  else
    match fragmentsOf matchString with
    | [single] => parseSingleKeyMatch isMac single
    | alts => parseMultipleKeyMatch isMac alts

/-! ## Key normalization and matching -/

/-- The fixed `keyMap` rewrite table of `normalizeKey`. -/
def keyMapLookup (k : List Char) : Option (List Char) :=
  if k = " ".data then some "space".data
  else if k = "arrowup".data then some "up".data
  else if k = "arrowdown".data then some "down".data
  else if k = "arrowleft".data then some "left".data
  else if k = "arrowright".data then some "right".data
  else none

/-- `normalizeKey` from the source: lowercase, then rewrite via the
table, unrecognized keys passing through. -/
def normalizeKey (key : List Char) : List Char :=
  let normalized := toLowerL key
  (keyMapLookup normalized).getD normalized

/-- The read-only fields of a `KeyboardEvent` consumed by `keyMatch`. -/
structure KeyEvent where
  key : List Char
  ctrlKey : Bool
  altKey : Bool
  shiftKey : Bool
  metaKey : Bool

/-- `keyMatch` from the source: parse, then compare the normalized event
key against `keys` and the four modifier booleans for strict equality. -/
def keyMatch (isMac : Bool) (event : KeyEvent) (matchString : List Char) :
    Except (List Char) Bool :=
  (parseMatchString isMac matchString).map fun p =>
    p.keys.any (fun key => normalizeKey event.key == key) &&
      event.ctrlKey == p.ctrl && event.altKey == p.alt &&
      event.shiftKey == p.shift && event.metaKey == p.meta

/-! ## Platform detection (`getIsMacOS`) -/

/-- The structured `navigator.userAgentData` capability: its `platform`
field may be absent (`undefined`), in which case the source substitutes
the empty string. -/
structure NavigatorUAData where
  platform : Option (List Char)

/-- The ambient `navigator` object: an optional structured descriptor
plus the legacy `navigator.platform` string. -/
structure JsNavigator where
  userAgentData : Option NavigatorUAData
  platform : List Char

/-- `getIsMacOS` from the source; `none` models
`typeof navigator === 'undefined'`. -/
def getIsMacOS (nav : Option JsNavigator) : Bool :=
  match nav with
  | none => false
  | some n =>
    let platform :=
      match n.userAgentData with
      | some uad => uad.platform.getD []
      | none => n.platform
    containsCS "MAC".data (toUpperL platform)

/-! ## Specification-side definitions

These are stated from the specification's vocabulary, to be compared
with the source-derived functions above. -/

/-- `mid` occurs as a contiguous segment of `l`. -/
def SubSeg (mid l : List Char) : Prop := ∃ l₁ l₂, l = l₁ ++ mid ++ l₂

/-- Interleave pieces with separators: used to state that splitting on
`or` only cuts at genuine occurrences. -/
def joinWith : List (List Char) → List (List Char) → List Char
  | [], _ => []
  | p :: ps, seps =>
    match seps with
    | [] => p
    | sep :: seps' => p ++ sep ++ joinWith ps seps'

/-- The boundary invariant of the `or`-splitter: the last accumulated
character and the next input character do not form a case-insensitive
`or` pair. -/
def BridgeOK (acc s : List Char) : Prop :=
  match acc, s with
  | a :: _, c :: _ => ¬(a.toLower = 'o' ∧ c.toLower = 'r')
  | _, _ => True

/-- The terminal key a fragment contributes: last `'+'`-segment of the
trimmed fragment, lowercased. -/
def termKeyOf (f : List Char) : List Char :=
  toLowerL ((splitPlus (trimChars f)).getLastD [])

/-- The modifier tokens a fragment contributes: all but the last
`'+'`-segment of the trimmed fragment, lowercased. -/
def modPartsOf (f : List Char) : List (List Char) :=
  (splitPlus (trimChars f)).dropLast.map toLowerL

/-- Tokens that set `ctrl` under the resolution table. -/
def ctrlTok (isMac : Bool) (t : List Char) : Bool :=
  decide (t = "ctrl".data) || decide (t = "control".data) ||
    ((decide (t = "cmdorctrl".data) || decide (t = "commandorcontrol".data)) && !isMac)

/-- Tokens that set `alt` under the resolution table. -/
def altTok (isMac : Bool) (t : List Char) : Bool :=
  decide (t = "alt".data) || (decide (t = "option".data) && isMac)

/-- Tokens that set `shift` under the resolution table. -/
def shiftTok (t : List Char) : Bool := decide (t = "shift".data)

/-- Tokens that set `meta` under the resolution table. -/
def metaTok (isMac : Bool) (t : List Char) : Bool :=
  decide (t = "cmd".data) || decide (t = "command".data) ||
    decide (t = "meta".data) || decide (t = "super".data) ||
    ((decide (t = "cmdorctrl".data) || decide (t = "commandorcontrol".data)) && isMac)

/-- Case-insensitive containment of `MAC`, stated as the existence of a
segment whose uppercasing is `MAC`. -/
def ContainsUpperMAC (l : List Char) : Prop :=
  ∃ l₁ mid l₂, l = l₁ ++ mid ++ l₂ ∧ toUpperL mid = "MAC".data

/-- The platform string `getIsMacOS` inspects: the structured descriptor
when present (empty string when its field is absent), else the legacy
platform string. -/
def resolvedPlatform (n : JsNavigator) : List Char :=
  match n.userAgentData with
  | some uad => uad.platform.getD []
  | none => n.platform

/-- The amended invalid-pattern criterion: a sole fragment is judged as
written (empty or ending in `'+'`), while fragments of a multi-alternative
pattern are judged after trimming. -/
def badFragmentCriterion (frags : List (List Char)) : Prop :=
  match frags with
  | [f] => f = [] ∨ f.getLast? = some '+'
  | fs => ∃ f ∈ fs, trimChars f = [] ∨ (trimChars f).getLast? = some '+'

/-! ## Substring machinery -/

theorem lowersTo_length : ∀ (pat s r : List Char),
    lowersTo pat s = some r → s.length = pat.length + r.length := by
  intro pat
  induction pat with
  | nil => intro s r h; simp [lowersTo] at h; simp [h]
  | cons p ps ih =>
    intro s r h
    cases s with
    | nil => simp [lowersTo] at h
    | cons c cs =>
      simp only [lowersTo] at h
      split at h
      · have := ih cs r h
        simp [this]; omega
      · exact absurd h (by simp)

theorem stripPre_length : ∀ (pat s r : List Char),
    stripPre pat s = some r → s.length = pat.length + r.length := by
  intro pat
  induction pat with
  | nil => intro s r h; simp [stripPre] at h; simp [h]
  | cons p ps ih =>
    intro s r h
    cases s with
    | nil => simp [stripPre] at h
    | cons c cs =>
      simp only [stripPre] at h
      split at h
      · have := ih cs r h
        simp [this]; omega
      · exact absurd h (by simp)

theorem SubSeg.refl (l : List Char) : SubSeg l l := ⟨[], [], by simp⟩

theorem SubSeg.trans {a b c : List Char} (h₁ : SubSeg a b) (h₂ : SubSeg b c) :
    SubSeg a c := by
  obtain ⟨x₁, x₂, rfl⟩ := h₁
  obtain ⟨y₁, y₂, rfl⟩ := h₂
  exact ⟨y₁ ++ x₁, x₂ ++ y₂, by simp⟩

theorem SubSeg.cons {m l : List Char} (c : Char) (h : SubSeg m l) :
    SubSeg m (c :: l) := by
  obtain ⟨l₁, l₂, rfl⟩ := h
  exact ⟨c :: l₁, l₂, by simp⟩

theorem SubSeg.append_left {m l : List Char} (pre : List Char) (h : SubSeg m l) :
    SubSeg m (pre ++ l) := by
  obtain ⟨l₁, l₂, rfl⟩ := h
  exact ⟨pre ++ l₁, l₂, by simp⟩

theorem SubSeg.append_right {m l : List Char} (post : List Char) (h : SubSeg m l) :
    SubSeg m (l ++ post) := by
  obtain ⟨l₁, l₂, rfl⟩ := h
  exact ⟨l₁, l₂ ++ post, by simp⟩

theorem lowersTo_complete : ∀ (mid r : List Char),
    lowersTo (toLowerL mid) (mid ++ r) = some r := by
  intro mid
  induction mid with
  | nil => intro r; simp [toLowerL, lowersTo]
  | cons c cs ih => intro r; simp [toLowerL, lowersTo] at ih ⊢; exact ih r

theorem lowersTo_sound : ∀ (pat s r : List Char), lowersTo pat s = some r →
    ∃ mid, s = mid ++ r ∧ toLowerL mid = pat := by
  intro pat
  induction pat with
  | nil =>
    intro s r h
    simp [lowersTo] at h
    exact ⟨[], by simp [h, toLowerL]⟩
  | cons p ps ih =>
    intro s r h
    cases s with
    | nil => simp [lowersTo] at h
    | cons c cs =>
      simp only [lowersTo] at h
      split at h
      · obtain ⟨mid, hmid, hlow⟩ := ih cs r h
        rename_i hc
        exact ⟨c :: mid, by simp [hmid], by simp [toLowerL] at hlow ⊢; exact ⟨hc, hlow⟩⟩
      · exact absurd h (by simp)

theorem stripPre_complete : ∀ (pat r : List Char),
    stripPre pat (pat ++ r) = some r := by
  intro pat
  induction pat with
  | nil => intro r; simp [stripPre]
  | cons c cs ih => intro r; simp [stripPre]; exact ih r

theorem stripPre_sound : ∀ (pat s r : List Char), stripPre pat s = some r →
    s = pat ++ r := by
  intro pat
  induction pat with
  | nil => intro s r h; simp [stripPre] at h; simp [h]
  | cons p ps ih =>
    intro s r h
    cases s with
    | nil => simp [stripPre] at h
    | cons c cs =>
      simp only [stripPre] at h
      split at h
      · rename_i hc
        simp [hc, ih cs r h]
      · exact absurd h (by simp)

theorem containsCI_of_startsWith {pat l : List Char}
    (h : startsWithCI pat l = true) : containsCI pat l = true := by
  cases l <;> simp [containsCI, h]

theorem containsCS_of_startsWith {pat l : List Char}
    (h : startsWithCS pat l = true) : containsCS pat l = true := by
  cases l <;> simp [containsCS, h]

theorem containsCI_of_subseg {pat mid l : List Char}
    (hsub : SubSeg mid l) (hlow : toLowerL mid = pat) :
    containsCI pat l = true := by
  obtain ⟨l₁, l₂, rfl⟩ := hsub
  induction l₁ with
  | nil =>
    apply containsCI_of_startsWith
    simp only [List.nil_append]
    have := lowersTo_complete mid l₂
    rw [hlow] at this
    simp [startsWithCI, this]
  | cons c cs ih =>
    simp only [List.cons_append, containsCI, Bool.or_eq_true]
    exact Or.inr (by simpa using ih)

theorem containsCS_of_subseg {pat l : List Char}
    (hsub : SubSeg pat l) : containsCS pat l = true := by
  obtain ⟨l₁, l₂, rfl⟩ := hsub
  induction l₁ with
  | nil =>
    apply containsCS_of_startsWith
    simp [startsWithCS, stripPre_complete]
  | cons c cs ih =>
    simp only [List.cons_append, containsCS, Bool.or_eq_true]
    exact Or.inr (by simpa using ih)

theorem containsCI_exists : ∀ {pat l : List Char}, containsCI pat l = true →
    ∃ l₁ mid l₂, l = l₁ ++ mid ++ l₂ ∧ toLowerL mid = pat := by
  intro pat l
  induction l with
  | nil =>
    intro h
    cases pat with
    | nil => exact ⟨[], [], [], by simp, by simp [toLowerL]⟩
    | cons p ps => simp [containsCI, startsWithCI, lowersTo] at h
  | cons c cs ih =>
    intro h
    simp only [containsCI, Bool.or_eq_true] at h
    rcases h with h | h
    · simp only [startsWithCI] at h
      rcases hmatch : lowersTo pat (c :: cs) with _ | r
      · rw [hmatch] at h; simp at h
      · obtain ⟨mid, hmid, hlow⟩ := lowersTo_sound pat (c :: cs) r hmatch
        exact ⟨[], mid, r, by simp [hmid], hlow⟩
    · obtain ⟨l₁, mid, l₂, hl, hlow⟩ := ih h
      exact ⟨c :: l₁, mid, l₂, by simp [hl], hlow⟩

theorem containsCS_exists : ∀ {pat l : List Char}, containsCS pat l = true →
    ∃ l₁ l₂, l = l₁ ++ pat ++ l₂ := by
  intro pat l
  induction l with
  | nil =>
    intro h
    cases pat with
    | nil => exact ⟨[], [], by simp⟩
    | cons p ps => simp [containsCS, startsWithCS, stripPre] at h
  | cons c cs ih =>
    intro h
    simp only [containsCS, Bool.or_eq_true] at h
    rcases h with h | h
    · simp only [startsWithCS] at h
      rcases hmatch : stripPre pat (c :: cs) with _ | r
      · rw [hmatch] at h; simp at h
      · exact ⟨[], r, stripPre_sound pat (c :: cs) r hmatch⟩
    · obtain ⟨l₁, l₂, hl⟩ := ih h
      exact ⟨c :: l₁, l₂, by simp [hl]⟩

theorem containsCI_mono {pat mid l : List Char}
    (h : containsCI pat mid = true) (hsub : SubSeg mid l) :
    containsCI pat l = true := by
  obtain ⟨m₁, m₂, m₃, hm, hlow⟩ := containsCI_exists h
  exact containsCI_of_subseg (SubSeg.trans ⟨m₁, m₃, hm⟩ hsub) hlow

theorem containsCS_mono {pat mid l : List Char}
    (h : containsCS pat mid = true) (hsub : SubSeg mid l) :
    containsCS pat l = true := by
  obtain ⟨m₁, m₂, hm⟩ := containsCS_exists h
  exact containsCS_of_subseg (SubSeg.trans ⟨m₁, m₂, hm⟩ hsub)

theorem replaceCIAux_id (p : Char) (ps repl : List Char) :
    ∀ (fuel : Nat) (l : List Char), containsCI (p :: ps) l = false →
      replaceCIAux p ps repl fuel l = l := by
  intro fuel
  induction fuel with
  | zero => intro l _; cases l <;> rfl
  | succ n ih =>
    intro l h
    cases l with
    | nil => rfl
    | cons c cs =>
      simp only [containsCI, Bool.or_eq_false_iff] at h
      have hnone : lowersTo (p :: ps) (c :: cs) = none := by
        have h1 := h.1
        simp only [startsWithCI] at h1
        exact Option.not_isSome_iff_eq_none.mp (by simp [h1])
      simp only [replaceCIAux, hnone]
      rw [ih cs h.2]

theorem replaceCI_id {p : Char} {ps repl l : List Char}
    (h : containsCI (p :: ps) l = false) : replaceCI p ps repl l = l :=
  replaceCIAux_id p ps repl l.length l h

theorem replaceCSAux_id (p : Char) (ps repl : List Char) :
    ∀ (fuel : Nat) (l : List Char), containsCS (p :: ps) l = false →
      replaceCSAux p ps repl fuel l = l := by
  intro fuel
  induction fuel with
  | zero => intro l _; cases l <;> rfl
  | succ n ih =>
    intro l h
    cases l with
    | nil => rfl
    | cons c cs =>
      simp only [containsCS, Bool.or_eq_false_iff] at h
      have hnone : stripPre (p :: ps) (c :: cs) = none := by
        have h1 := h.1
        simp only [startsWithCS] at h1
        exact Option.not_isSome_iff_eq_none.mp (by simp [h1])
      simp only [replaceCSAux, hnone]
      rw [ih cs h.2]

theorem replaceCS_id {p : Char} {ps repl l : List Char}
    (h : containsCS (p :: ps) l = false) : replaceCS p ps repl l = l :=
  replaceCSAux_id p ps repl l.length l h

/-! ## splitPlus lemmas -/

theorem splitPlus_shape : ∀ l : List Char, ∃ p ps, splitPlus l = p :: ps ∧
    (∃ rest, l = p ++ rest) ∧ ∀ q ∈ ps, SubSeg q l := by
  intro l
  induction l with
  | nil => exact ⟨[], [], rfl, ⟨[], rfl⟩, by simp⟩
  | cons c cs ih =>
    obtain ⟨p, ps, hsp, ⟨rest, hrest⟩, hsub⟩ := ih
    by_cases hc : c = '+'
    · refine ⟨[], p :: ps, ?_, ⟨c :: cs, rfl⟩, ?_⟩
      · simp [splitPlus, hsp, hc]
      · intro q hq
        rcases List.mem_cons.mp hq with rfl | hq'
        · exact SubSeg.cons c ⟨[], rest, by simpa using hrest⟩
        · exact SubSeg.cons c (hsub q hq')
    · refine ⟨c :: p, ps, ?_, ⟨rest, by simp [hrest]⟩, ?_⟩
      · simp [splitPlus, hsp, hc]
      · intro q hq; exact SubSeg.cons c (hsub q hq)

theorem splitPlus_subseg {l q : List Char} (h : q ∈ splitPlus l) :
    SubSeg q l := by
  obtain ⟨p, ps, hsp, ⟨rest, hrest⟩, hsub⟩ := splitPlus_shape l
  rw [hsp] at h
  rcases List.mem_cons.mp h with rfl | h'
  · exact ⟨[], rest, by simpa using hrest⟩
  · exact hsub q h'

theorem splitPlus_singleton : ∀ {l p : List Char}, splitPlus l = [p] → l = p := by
  intro l
  induction l with
  | nil =>
    intro p h
    have h2 : ([[]] : List (List Char)) = [p] := h
    injection h2
  | cons c cs ih =>
    intro p h
    obtain ⟨p', ps', hsp, _, _⟩ := splitPlus_shape cs
    by_cases hc : c = '+'
    · simp [splitPlus, hsp, hc] at h
    · simp only [splitPlus, hsp] at h
      rw [if_neg hc] at h
      cases h
      have := ih hsp
      simp [this]

theorem getLastD_cons_cons {α : Type} (a b : α) (l : List α) (d : α) :
    (a :: b :: l).getLastD d = (b :: l).getLastD d := by
  simp [List.getLastD_cons]

theorem splitPlus_lastD_eq_nil : ∀ l : List Char,
    ((splitPlus l).getLastD [] = [] ↔ l = [] ∨ l.getLast? = some '+') := by
  intro l
  induction l with
  | nil => simp [splitPlus]
  | cons c cs ih =>
    obtain ⟨p, ps, hsp, _, _⟩ := splitPlus_shape cs
    by_cases hc : c = '+'
    · have hl : splitPlus (c :: cs) = [] :: p :: ps := by
        simp [splitPlus, hsp, hc]
      rw [hl, getLastD_cons_cons, ← hsp]
      cases cs with
      | nil =>
        simp [splitPlus, hc]
      | cons d ds =>
        rw [ih]
        simp [List.getLast?_cons_cons]
    · have hl : splitPlus (c :: cs) = (c :: p) :: ps := by
        simp [splitPlus, hsp, hc]
      rw [hl]
      cases ps with
      | nil =>
        constructor
        · intro h; simp at h
        · intro h
          rcases h with h | h
          · exact absurd h (by simp)
          · cases cs with
            | nil => simp at h; exact absurd h hc
            | cons d ds =>
              rw [List.getLast?_cons_cons] at h
              have h2 := (ih).mpr (Or.inr h)
              rw [hsp] at h2
              simp at h2
              have := @splitPlus_singleton (d :: ds) [] (by rw [hsp, h2])
              simp [this] at hsp
              simp_all
      | cons q qs =>
        have hg : ((c :: p) :: q :: qs).getLastD [] = (splitPlus cs).getLastD [] := by
          rw [getLastD_cons_cons, hsp, getLastD_cons_cons]
        rw [hg, ih]
        have hcs : cs ≠ [] := by
          intro hnil
          rw [hnil] at hsp
          simp [splitPlus] at hsp
        cases cs with
        | nil => exact absurd rfl hcs
        | cons d ds =>
          simp [List.getLast?_cons_cons]

/-! ## splitOrAux lemmas -/

theorem startsWithCI_or (a b : Char) (r : List Char) :
    startsWithCI ['o', 'r'] (a :: b :: r) =
      (decide (a.toLower = 'o') && decide (b.toLower = 'r')) := by
  by_cases h1 : a.toLower = 'o' <;> by_cases h2 : b.toLower = 'r' <;>
    simp [startsWithCI, lowersTo, h1, h2]

theorem containsCI_or_append_one : ∀ (l : List Char) (c : Char),
    containsCI ['o', 'r'] l = false →
    (∀ a, l.getLast? = some a → ¬(a.toLower = 'o' ∧ c.toLower = 'r')) →
    containsCI ['o', 'r'] (l ++ [c]) = false := by
  intro l
  induction l with
  | nil =>
    intro c _ _
    by_cases hc : c.toLower = 'o' <;> simp [containsCI, startsWithCI, lowersTo, hc]
  | cons a as ih =>
    intro c h hlast
    simp only [containsCI, Bool.or_eq_false_iff] at h
    cases as with
    | nil =>
      have ha := hlast a (by simp)
      by_cases h1 : a.toLower = 'o' <;> by_cases h2 : c.toLower = 'r' <;>
        (simp [containsCI, startsWithCI, lowersTo, h1, h2]; try tauto)
    | cons b bs =>
      have hrec := ih c h.2
        (by intro x hx; exact hlast x (by rw [List.getLast?_cons_cons]; exact hx))
      have hsw : (decide (a.toLower = 'o') && decide (b.toLower = 'r')) = false := by
        have h1 := h.1; rwa [startsWithCI_or] at h1
      have hshape : (a :: b :: bs) ++ [c] = a :: b :: (bs ++ [c]) := by simp
      rw [hshape]
      rw [show containsCI ['o', 'r'] (a :: b :: (bs ++ [c])) =
        (startsWithCI ['o', 'r'] (a :: b :: (bs ++ [c])) ||
          containsCI ['o', 'r'] (b :: (bs ++ [c]))) from rfl]
      rw [Bool.or_eq_false_iff]
      constructor
      · rw [startsWithCI_or]; exact hsw
      · simpa using hrec

theorem splitOrAux_subseg : ∀ (s acc piece : List Char),
    piece ∈ splitOrAux s acc → SubSeg piece (acc.reverse ++ s) := by
  have key : ∀ (n : Nat) (s acc piece : List Char), s.length ≤ n →
      piece ∈ splitOrAux s acc → SubSeg piece (acc.reverse ++ s) := by
    intro n
    induction n with
    | zero =>
      intro s acc piece hlen hmem
      have hs : s = [] := List.length_eq_zero.mp (Nat.le_zero.mp hlen)
      subst hs
      simp [splitOrAux] at hmem
      subst hmem
      exact ⟨[], [], by simp⟩
    | succ n ih =>
      intro s acc piece hlen hmem
      cases s with
      | nil =>
        simp [splitOrAux] at hmem
        subst hmem
        exact ⟨[], [], by simp⟩
      | cons c1 s' =>
        cases s' with
        | nil =>
          simp [splitOrAux] at hmem
          subst hmem
          exact ⟨[], [], by simp⟩
        | cons c2 rest =>
          simp only [splitOrAux] at hmem
          split at hmem
          · rcases List.mem_cons.mp hmem with rfl | hmem'
            · exact ⟨[], c1 :: c2 :: rest, by simp⟩
            · have hsub := ih rest [] piece (by simp at hlen ⊢; omega) hmem'
              simp only [List.reverse_nil, List.nil_append] at hsub
              have h2 := SubSeg.append_left (acc.reverse ++ [c1, c2]) hsub
              simpa using h2
          · have hsub := ih (c2 :: rest) (c1 :: acc) piece
              (by simp at hlen ⊢; omega) hmem
            simpa using hsub
  intro s acc piece h
  exact key s.length s acc piece le_rfl h

theorem splitOrAux_or_free : ∀ (s acc piece : List Char),
    containsCI ['o', 'r'] acc.reverse = false → BridgeOK acc s →
    piece ∈ splitOrAux s acc → containsCI ['o', 'r'] piece = false := by
  have key : ∀ (n : Nat) (s acc piece : List Char), s.length ≤ n →
      containsCI ['o', 'r'] acc.reverse = false → BridgeOK acc s →
      piece ∈ splitOrAux s acc → containsCI ['o', 'r'] piece = false := by
    intro n
    induction n with
    | zero =>
      intro s acc piece hlen hacc _ hmem
      have hs : s = [] := List.length_eq_zero.mp (Nat.le_zero.mp hlen)
      subst hs
      simp [splitOrAux] at hmem
      subst hmem
      exact hacc
    | succ n ih =>
      intro s acc piece hlen hacc hbr hmem
      cases s with
      | nil =>
        simp [splitOrAux] at hmem
        subst hmem
        exact hacc
      | cons c1 s' =>
        have hone : containsCI ['o', 'r'] (acc.reverse ++ [c1]) = false := by
          apply containsCI_or_append_one acc.reverse c1 hacc
          intro x hx
          rw [List.getLast?_reverse] at hx
          cases acc with
          | nil => simp at hx
          | cons a as =>
            simp at hx
            subst hx
            exact hbr
        cases s' with
        | nil =>
          simp [splitOrAux] at hmem
          subst hmem
          simpa using hone
        | cons c2 rest =>
          simp only [splitOrAux] at hmem
          split at hmem
          · rcases List.mem_cons.mp hmem with rfl | hmem'
            · exact hacc
            · exact ih rest [] piece (by simp at hlen ⊢; omega)
                (by decide) (by trivial) hmem'
          · rename_i hpair
            refine ih (c2 :: rest) (c1 :: acc) piece (by simp at hlen ⊢; omega)
              ?_ ?_ hmem
            · simpa using hone
            · exact hpair
  intro s acc piece h1 h2 h3
  exact key s.length s acc piece le_rfl h1 h2 h3

theorem splitOrAux_join : ∀ (s acc : List Char),
    ∃ seps, seps.length + 1 = (splitOrAux s acc).length ∧
      (∀ sep ∈ seps, toLowerL sep = ['o', 'r']) ∧
      joinWith (splitOrAux s acc) seps = acc.reverse ++ s := by
  have key : ∀ (n : Nat) (s acc : List Char), s.length ≤ n →
      ∃ seps, seps.length + 1 = (splitOrAux s acc).length ∧
        (∀ sep ∈ seps, toLowerL sep = ['o', 'r']) ∧
        joinWith (splitOrAux s acc) seps = acc.reverse ++ s := by
    intro n
    induction n with
    | zero =>
      intro s acc hlen
      have hs : s = [] := List.length_eq_zero.mp (Nat.le_zero.mp hlen)
      subst hs
      exact ⟨[], by simp [splitOrAux, joinWith]⟩
    | succ n ih =>
      intro s acc hlen
      cases s with
      | nil => exact ⟨[], by simp [splitOrAux, joinWith]⟩
      | cons c1 s' =>
        cases s' with
        | nil => exact ⟨[], by simp [splitOrAux, joinWith]⟩
        | cons c2 rest =>
          by_cases hpair : c1.toLower = 'o' ∧ c2.toLower = 'r'
          · obtain ⟨seps, hlen2, hor, hjoin⟩ := ih rest []
              (by simp at hlen ⊢; omega)
            have hsplit : splitOrAux (c1 :: c2 :: rest) acc =
                acc.reverse :: splitOrAux rest [] := by
              simp [splitOrAux, hpair]
            refine ⟨[c1, c2] :: seps, ?_, ?_, ?_⟩
            · simp [hsplit]; omega
            · intro sep hsep
              rcases List.mem_cons.mp hsep with rfl | hsep'
              · simp [toLowerL, hpair.1, hpair.2]
              · exact hor sep hsep'
            · rw [hsplit]
              have hstep : joinWith (acc.reverse :: splitOrAux rest [])
                  ([c1, c2] :: seps) =
                  acc.reverse ++ [c1, c2] ++ joinWith (splitOrAux rest []) seps := rfl
              rw [hstep, hjoin]
              simp
          · obtain ⟨seps, hlen2, hor, hjoin⟩ := ih (c2 :: rest) (c1 :: acc)
              (by simp at hlen ⊢; omega)
            have hsplit : splitOrAux (c1 :: c2 :: rest) acc =
                splitOrAux (c2 :: rest) (c1 :: acc) := by
              simp [splitOrAux, hpair]
            refine ⟨seps, by rw [hsplit]; exact hlen2, hor, ?_⟩
            rw [hsplit, hjoin]
            simp
  intro s acc
  exact key s.length s acc le_rfl

theorem splitOrAux_no_o : ∀ (s acc : List Char),
    (∀ c ∈ s, c.toLower ≠ 'o') → splitOrAux s acc = [acc.reverse ++ s] := by
  intro s
  induction s with
  | nil => intro acc _; simp [splitOrAux]
  | cons c1 s' ih =>
    intro acc h
    cases s' with
    | nil => simp [splitOrAux]
    | cons c2 rest =>
      have hc1 : c1.toLower ≠ 'o' := h c1 (by simp)
      have hrest : ∀ c ∈ c2 :: rest, c.toLower ≠ 'o' := by
        intro c hc; exact h c (by simp [hc])
      have := ih (c1 :: acc) hrest
      simp only [splitOrAux]
      rw [if_neg (by tauto)]
      rw [this]
      simp

/-! ## Trim and whitespace lemmas -/

theorem trimChars_subseg (l : List Char) : SubSeg (trimChars l) l := by
  unfold trimChars
  refine ⟨l.takeWhile isJsWhite,
    ((l.dropWhile isJsWhite).reverse.takeWhile isJsWhite).reverse, ?_⟩
  conv_lhs => rw [← List.takeWhile_append_dropWhile isJsWhite l]
  rw [List.append_assoc]
  congr 1
  rw [← List.reverse_append, List.takeWhile_append_dropWhile, List.reverse_reverse]

theorem trimChars_eq_nil_all_white {l : List Char} (h : trimChars l = []) :
    ∀ c ∈ l, isJsWhite c = true := by
  unfold trimChars at h
  rw [List.reverse_eq_nil_iff, List.dropWhile_eq_nil_iff] at h
  have hdrop : ∀ c ∈ l.dropWhile isJsWhite, isJsWhite c = true := by
    intro c hc
    exact h c (List.mem_reverse.mpr hc)
  intro c hc
  rw [← List.takeWhile_append_dropWhile isJsWhite l] at hc
  rcases List.mem_append.mp hc with hc' | hc'
  · exact List.mem_takeWhile_imp hc'
  · exact hdrop c hc'

theorem white_toLower_ne {c : Char} (h : isJsWhite c = true) :
    c.toLower ≠ 'o' ∧ c.toLower ≠ 'c' := by
  simp only [isJsWhite, Bool.or_eq_true, decide_eq_true_eq] at h
  rcases h with ((((((h | h) | h) | h) | h) | h) | h) | h <;>
    (subst h; exact ⟨by decide, by decide⟩)

theorem containsCI_false_of_head_not (p : Char) (ps : List Char) :
    ∀ l : List Char, (∀ c ∈ l, c.toLower ≠ p) →
      containsCI (p :: ps) l = false := by
  intro l
  induction l with
  | nil => intro _; rfl
  | cons c cs ih =>
    intro h
    have hc : c.toLower ≠ p := h c (by simp)
    simp only [containsCI, Bool.or_eq_false_iff]
    exact ⟨by simp [startsWithCI, lowersTo, hc],
      ih (fun x hx => h x (by simp [hx]))⟩

theorem containsCS_false_of_head_not (p : Char) (ps : List Char) :
    ∀ l : List Char, (∀ c ∈ l, c ≠ p) →
      containsCS (p :: ps) l = false := by
  intro l
  induction l with
  | nil => intro _; rfl
  | cons c cs ih =>
    intro h
    have hc : c ≠ p := h c (by simp)
    simp only [containsCS, Bool.or_eq_false_iff]
    exact ⟨by simp [startsWithCS, stripPre, hc],
      ih (fun x hx => h x (by simp [hx]))⟩

/-! ## fragmentsOf lemmas -/

theorem fragmentsOf_blank {s : List Char} (h : trimChars s = []) :
    fragmentsOf s = [restoreAliases s] := by
  have hwhite := trimChars_eq_nil_all_white h
  have hprot : protectAliases s = s := by
    unfold protectAliases
    rw [replaceCI_id (containsCI_false_of_head_not 'c' _ s
      (fun c hc => (white_toLower_ne (hwhite c hc)).2))]
    rw [replaceCI_id (containsCI_false_of_head_not 'c' _ s
      (fun c hc => (white_toLower_ne (hwhite c hc)).2))]
  unfold fragmentsOf splitCIor
  rw [hprot, splitOrAux_no_o s []
    (fun c hc => (white_toLower_ne (hwhite c hc)).1)]
  simp

theorem restoreAliases_id {piece : List Char}
    (h4 : containsCS "__CMDCTRL__".data piece = false)
    (h5 : containsCS "__COMMANDCONTROL__".data piece = false) :
    restoreAliases piece = piece := by
  unfold restoreAliases
  rw [replaceCS_id h4, replaceCS_id h5]

theorem contains_false_of_subseg_CI {pat piece s : List Char}
    (hs : containsCI pat s = false) (hsub : SubSeg piece s) :
    containsCI pat piece = false := by
  cases h : containsCI pat piece with
  | false => rfl
  | true => rw [containsCI_mono h hsub] at hs; exact hs.symm ▸ rfl

theorem contains_false_of_subseg_CS {pat piece s : List Char}
    (hs : containsCS pat s = false) (hsub : SubSeg piece s) :
    containsCS pat piece = false := by
  cases h : containsCS pat piece with
  | false => rfl
  | true => rw [containsCS_mono h hsub] at hs; exact hs.symm ▸ rfl

theorem fragmentsOf_protect_free {s : List Char}
    (h1 : containsCI "cmdorctrl".data s = false)
    (h2 : containsCI "commandorcontrol".data s = false)
    (h4 : containsCS "__CMDCTRL__".data s = false)
    (h5 : containsCS "__COMMANDCONTROL__".data s = false) :
    fragmentsOf s = splitCIor s ∧ ∀ f ∈ splitCIor s, SubSeg f s := by
  have hprot : protectAliases s = s := by
    unfold protectAliases
    rw [replaceCI_id h1, replaceCI_id h2]
  have hsub : ∀ f ∈ splitCIor s, SubSeg f s := by
    intro f hf
    have := splitOrAux_subseg s [] f hf
    simpa using this
  constructor
  · unfold fragmentsOf
    rw [hprot]
    have : ∀ f ∈ splitCIor s, restoreAliases f = f := by
      intro f hf
      exact restoreAliases_id
        (contains_false_of_subseg_CS h4 (hsub f hf))
        (contains_false_of_subseg_CS h5 (hsub f hf))
    rw [List.map_congr_left this]
    simp
  · exact hsub

/-! ## parseModifiers lemmas -/

theorem applyModifier_fields (isMac : Bool) (m : ModFlags) (t : List Char) :
    applyModifier isMac m t =
      ⟨m.ctrl || ctrlTok isMac t, m.alt || altTok isMac t,
       m.shift || shiftTok t, m.meta || metaTok isMac t⟩ := by
  unfold applyModifier
  split_ifs with h1 h2 h3 h4 h5 h6 h7 h8 h9
  all_goals try (rcases h1 with rfl | rfl)
  all_goals try (rcases h2 with rfl | rfl)
  all_goals try (rcases h3 with rfl | rfl)
  all_goals try (rcases h9 with rfl | rfl)
  all_goals try subst h5
  all_goals try subst h6
  all_goals try subst h8
  all_goals simp_all [ctrlTok, altTok, shiftTok, metaTok, ModFlags.mk.injEq]

theorem parseModifiers_foldl (isMac : Bool) :
    ∀ (l : List (List Char)) (acc : ModFlags),
      l.foldl (applyModifier isMac) acc =
        ⟨acc.ctrl || l.any (ctrlTok isMac), acc.alt || l.any (altTok isMac),
         acc.shift || l.any shiftTok, acc.meta || l.any (metaTok isMac)⟩ := by
  intro l
  induction l with
  | nil => intro acc; simp
  | cons t ts ih =>
    intro acc
    rw [List.foldl_cons, ih, applyModifier_fields]
    simp [Bool.or_assoc]

theorem parseModifiers_closed (isMac : Bool) (l : List (List Char)) :
    parseModifiers isMac l =
      ⟨l.any (ctrlTok isMac), l.any (altTok isMac),
       l.any shiftTok, l.any (metaTok isMac)⟩ := by
  unfold parseModifiers
  rw [parseModifiers_foldl]
  simp

theorem any_congr_mem {α : Type} {l : List α} {p q : α → Bool}
    (h : ∀ x ∈ l, p x = q x) : l.any p = l.any q := by
  induction l with
  | nil => rfl
  | cons a as ih =>
    simp only [List.any_cons]
    rw [h a (by simp), ih (fun x hx => h x (by simp [hx]))]

theorem any_perm {α : Type} {l l' : List α} (h : l.Perm l') (p : α → Bool) :
    l.any p = l'.any p := by
  induction h with
  | nil => rfl
  | cons a _ ih => simp [List.any_cons, ih]
  | swap a b l => simp [List.any_cons, Bool.or_left_comm]
  | trans _ _ ih1 ih2 => rw [ih1, ih2]

theorem parseModifiers_perm (isMac : Bool) {l l' : List (List Char)}
    (h : l.Perm l') : parseModifiers isMac l = parseModifiers isMac l' := by
  rw [parseModifiers_closed, parseModifiers_closed]
  rw [any_perm h, any_perm h, any_perm h, any_perm h]

theorem parseModifiers_dup (isMac : Bool) (l₁ l₂ : List (List Char))
    (t : List Char) :
    parseModifiers isMac (l₁ ++ t :: t :: l₂) =
      parseModifiers isMac (l₁ ++ t :: l₂) := by
  rw [parseModifiers_closed, parseModifiers_closed]
  have h : ∀ p : List Char → Bool,
      (l₁ ++ t :: t :: l₂).any p = (l₁ ++ t :: l₂).any p := by
    intro p
    simp only [List.any_append, List.any_cons]
    cases p t <;> simp
  rw [h, h, h, h]

theorem parseModifiers_platform_indep {toks : List (List Char)}
    (h : ∀ t ∈ toks, t ≠ "cmdorctrl".data ∧ t ≠ "commandorcontrol".data ∧
      t ≠ "option".data) (a b : Bool) :
    parseModifiers a toks = parseModifiers b toks := by
  rw [parseModifiers_closed, parseModifiers_closed]
  have hc : toks.any (ctrlTok a) = toks.any (ctrlTok b) := by
    apply any_congr_mem
    intro t ht
    simp [ctrlTok, (h t ht).1, (h t ht).2.1]
  have ha : toks.any (altTok a) = toks.any (altTok b) := by
    apply any_congr_mem
    intro t ht
    simp [altTok, (h t ht).2.2]
  have hm : toks.any (metaTok a) = toks.any (metaTok b) := by
    apply any_congr_mem
    intro t ht
    simp [metaTok, (h t ht).1, (h t ht).2.1]
  rw [hc, ha, hm]

/-! ## Parse-path lemmas -/

theorem toLowerL_eq_nil {l : List Char} : toLowerL l = [] ↔ l = [] := by
  simp [toLowerL]

theorem parseSingleKeyMatch_error {isMac : Bool} {f msg : List Char}
    (h : parseSingleKeyMatch isMac f = .error msg) :
    msg = invalidMsg f ∧ toLowerL ((splitPlus f).getLastD []) = [] := by
  simp only [parseSingleKeyMatch] at h
  split at h
  · exact ⟨by injection h with h'; exact h'.symm, by assumption⟩
  · exact absurd h (by simp)

theorem parseSingleKeyMatch_error_iff (isMac : Bool) (f : List Char) :
    (∃ msg, parseSingleKeyMatch isMac f = .error msg) ↔
      (f = [] ∨ f.getLast? = some '+') := by
  rw [← splitPlus_lastD_eq_nil, ← toLowerL_eq_nil]
  simp only [parseSingleKeyMatch]
  constructor
  · intro ⟨msg, hmsg⟩
    split at hmsg
    · assumption
    · exact absurd hmsg (by simp)
  · intro h
    exact ⟨invalidMsg f, by rw [if_pos h]⟩

theorem parseSingleKeyMatch_ok {isMac : Bool} {f : List Char}
    (h : toLowerL ((splitPlus f).getLastD []) ≠ []) :
    parseSingleKeyMatch isMac f =
      .ok ⟨(parseModifiers isMac ((splitPlus f).dropLast.map toLowerL)).ctrl,
           (parseModifiers isMac ((splitPlus f).dropLast.map toLowerL)).alt,
           (parseModifiers isMac ((splitPlus f).dropLast.map toLowerL)).shift,
           (parseModifiers isMac ((splitPlus f).dropLast.map toLowerL)).meta,
           [toLowerL ((splitPlus f).getLastD [])]⟩ := by
  unfold parseSingleKeyMatch
  rw [if_neg h]

theorem parseMultipleAux_error_iff (isMac : Bool) :
    ∀ (l keys : List (List Char)) (m : ModFlags) (first : Bool),
      (∃ msg, parseMultipleAux isMac l keys m first = .error msg) ↔
        ∃ f ∈ l, termKeyOf f = [] := by
  intro l
  induction l with
  | nil =>
    intro keys m first
    simp [parseMultipleAux]
  | cons a rest ih =>
    intro keys m first
    unfold parseMultipleAux
    by_cases h : toLowerL ((splitPlus (trimChars a)).getLastD []) = []
    · rw [if_pos h]
      simp only [List.mem_cons]
      exact ⟨fun _ => ⟨a, Or.inl rfl, h⟩, fun _ => ⟨invalidMsg (trimChars a), rfl⟩⟩
    · rw [if_neg h]
      rw [ih]
      simp only [List.mem_cons]
      constructor
      · intro ⟨f, hf, hk⟩
        exact ⟨f, Or.inr hf, hk⟩
      · intro ⟨f, hf, hk⟩
        rcases hf with rfl | hf
        · exact absurd hk h
        · exact ⟨f, hf, hk⟩

theorem parseMultipleAux_error_msg (isMac : Bool) :
    ∀ (l keys : List (List Char)) (m : ModFlags) (first : Bool)
      (msg : List Char),
      parseMultipleAux isMac l keys m first = .error msg →
      ∃ f ∈ l, termKeyOf f = [] ∧ msg = invalidMsg (trimChars f) := by
  intro l
  induction l with
  | nil =>
    intro keys m first msg h
    exact absurd h (by simp [parseMultipleAux])
  | cons a rest ih =>
    intro keys m first msg h
    simp only [parseMultipleAux] at h
    split at h
    · refine ⟨a, by simp, by assumption, ?_⟩
      injection h with h'
      exact h'.symm
    · obtain ⟨f, hf, hk, hm⟩ := ih _ _ _ _ h
      exact ⟨f, by simp [hf], hk, hm⟩

theorem parseMultipleAux_ok_false (isMac : Bool) :
    ∀ (l keys : List (List Char)) (m : ModFlags),
      (∀ f ∈ l, termKeyOf f ≠ []) →
      parseMultipleAux isMac l keys m false =
        .ok ⟨m.ctrl, m.alt, m.shift, m.meta, keys ++ l.map termKeyOf⟩ := by
  intro l
  induction l with
  | nil => intro keys m _; simp [parseMultipleAux]
  | cons a rest ih =>
    intro keys m h
    have hkey : ¬(toLowerL ((splitPlus (trimChars a)).getLastD []) = []) :=
      h a (by simp)
    simp only [parseMultipleAux]
    rw [if_neg hkey]
    simp only [Bool.false_eq_true, if_false]
    rw [ih (keys ++ [toLowerL ((splitPlus (trimChars a)).getLastD [])]) m
      (fun f hf => h f (by simp [hf]))]
    simp [termKeyOf]

theorem parseMultipleKeyMatch_ok (isMac : Bool) (f₀ : List Char)
    (rest : List (List Char))
    (h : ∀ f ∈ f₀ :: rest, termKeyOf f ≠ []) :
    parseMultipleKeyMatch isMac (f₀ :: rest) =
      .ok ⟨(parseModifiers isMac (modPartsOf f₀)).ctrl,
           (parseModifiers isMac (modPartsOf f₀)).alt,
           (parseModifiers isMac (modPartsOf f₀)).shift,
           (parseModifiers isMac (modPartsOf f₀)).meta,
           (f₀ :: rest).map termKeyOf⟩ := by
  unfold parseMultipleKeyMatch
  have hkey : ¬(toLowerL ((splitPlus (trimChars f₀)).getLastD []) = []) :=
    h f₀ (by simp)
  simp only [parseMultipleAux]
  rw [if_neg hkey]
  simp only [if_true]
  rw [parseMultipleAux_ok_false isMac rest _ _ (fun f hf => h f (by simp [hf]))]
  simp [termKeyOf, modPartsOf]

theorem parseMatchString_blank {isMac : Bool} {s : List Char}
    (h : trimChars s = []) :
    parseMatchString isMac s = .ok ⟨false, false, false, false, [[]]⟩ := by
  unfold parseMatchString
  rw [if_pos h]

theorem parseMatchString_single (isMac : Bool) {s f : List Char}
    (hb : trimChars s ≠ []) (hf : fragmentsOf s = [f]) :
    parseMatchString isMac s = parseSingleKeyMatch isMac f := by
  unfold parseMatchString
  rw [if_neg hb, hf]

theorem parseMatchString_multi (isMac : Bool) {s : List Char}
    {f₀ f₁ : List Char} {fs : List (List Char)}
    (hb : trimChars s ≠ []) (hf : fragmentsOf s = f₀ :: f₁ :: fs) :
    parseMatchString isMac s = parseMultipleKeyMatch isMac (f₀ :: f₁ :: fs) := by
  unfold parseMatchString
  rw [if_neg hb, hf]

/-! ## Key-normalization helpers -/

theorem keyMapLookup_values {k v : List Char} (h : keyMapLookup k = some v) :
    v ≠ [] := by
  unfold keyMapLookup at h
  split_ifs at h <;> (injection h with h'; subst h'; decide)

theorem normalizeKey_ne_nil {k : List Char} (h : k ≠ []) :
    normalizeKey k ≠ [] := by
  have hlow : toLowerL k ≠ [] := by
    simpa [toLowerL_eq_nil] using h
  simp only [normalizeKey]
  cases hlook : keyMapLookup (toLowerL k) with
  | none => simpa using hlow
  | some v => simpa using keyMapLookup_values hlook

theorem containsCS_MAC_iff (p : List Char) :
    containsCS "MAC".data (toUpperL p) = true ↔ ContainsUpperMAC p := by
  constructor
  · intro h
    obtain ⟨l₁, l₂, hl⟩ := containsCS_exists h
    rw [List.append_assoc] at hl
    obtain ⟨s, t, hst, hs, ht⟩ := List.append_eq_map_iff.mp hl.symm
    obtain ⟨u, v, huv, hu, hv⟩ := List.append_eq_map_iff.mp ht.symm
    refine ⟨s, u, v, by rw [hst, huv, List.append_assoc], ?_⟩
    simpa [toUpperL] using hu
  · intro ⟨l₁, mid, l₂, hp, hup⟩
    apply containsCS_of_subseg
    refine ⟨toUpperL l₁, toUpperL l₂, ?_⟩
    rw [hp]
    simp only [toUpperL, List.map_append] at hup ⊢
    rw [hup]

/-! ## Claim theorems -/

/-- C1: for every event and every well-formed pattern string (one the parser
accepts), keyMatch returns true exactly when the normalized event key is a
member of the parsed keys list and the four event modifier booleans are each
strictly equal to the parsed flags; in particular an event holding an extra
modifier does not match. -/
theorem keyMatch_true_iff (isMac : Bool) (e : KeyEvent) (P : List Char)
    (pat : KeyPattern) (h : parseMatchString isMac P = .ok pat) :
    keyMatch isMac e P = .ok true ↔
      (normalizeKey e.key ∈ pat.keys ∧ e.ctrlKey = pat.ctrl ∧
       e.altKey = pat.alt ∧ e.shiftKey = pat.shift ∧ e.metaKey = pat.meta) := by
  unfold keyMatch
  rw [h]
  simp only [Except.map, Except.ok.injEq]
  simp only [Bool.and_eq_true, List.any_eq_true, beq_iff_eq]
  constructor
  · intro ⟨⟨⟨⟨⟨k, hk, hkey⟩, hc⟩, ha⟩, hs⟩, hm⟩
    exact ⟨hkey ▸ hk, hc, ha, hs, hm⟩
  · intro ⟨hk, hc, ha, hs, hm⟩
    exact ⟨⟨⟨⟨⟨normalizeKey e.key, hk, rfl⟩, hc⟩, ha⟩, hs⟩, hm⟩

/-- keyMatch_true_iff applied at the concrete pattern `ctrl+a` and an event
with the extra Shift modifier held: the parse hypothesis is discharged by
evaluation and the event does not match. -/
theorem keyMatch_true_iff_witness :
    parseMatchString false "ctrl+a".data =
      .ok ⟨true, false, false, false, [['a']]⟩ ∧
    (keyMatch false ⟨"a".data, true, false, true, false⟩ "ctrl+a".data =
        .ok true ↔
      (normalizeKey "a".data ∈ [['a']] ∧ true = true ∧ false = false ∧
        true = false ∧ false = false)) ∧
    keyMatch false ⟨"a".data, true, false, true, false⟩ "ctrl+a".data =
      .ok false :=
  ⟨by decide,
   keyMatch_true_iff false ⟨"a".data, true, false, true, false⟩ "ctrl+a".data
     ⟨true, false, false, false, [['a']]⟩ (by decide),
   by decide⟩

/-- C3 (amended): blank (empty or all-whitespace) patterns parse to the
sentinel `{false, false, false, false, [""]}` without error, and keyMatch
with a blank pattern returns false for every event whose key label is a
non-empty string. -/
theorem blank_pattern_inert (isMac : Bool) (s : List Char)
    (h : trimChars s = []) :
    parseMatchString isMac s = .ok ⟨false, false, false, false, [[]]⟩ ∧
    ∀ e : KeyEvent, e.key ≠ [] → keyMatch isMac e s = .ok false := by
  refine ⟨parseMatchString_blank h, ?_⟩
  intro e he
  unfold keyMatch
  rw [parseMatchString_blank h]
  simp only [Except.map, Except.ok.injEq]
  have hne : normalizeKey e.key ≠ [] := normalizeKey_ne_nil he
  simp [hne]

/-- blank_pattern_inert applied at the whitespace pattern `"  "` and an
event with key `a`. -/
theorem blank_pattern_inert_witness :
    trimChars "  ".data = [] ∧
    parseMatchString false "  ".data =
      .ok ⟨false, false, false, false, [[]]⟩ ∧
    keyMatch false ⟨"a".data, false, false, false, false⟩ "  ".data =
      .ok false :=
  ⟨by decide, (blank_pattern_inert false "  ".data (by decide)).1,
   (blank_pattern_inert false "  ".data (by decide)).2
     ⟨"a".data, false, false, false, false⟩ (by decide)⟩

/-- C3 counterexample: the artificial event whose key label is the empty
string (constructible in a browser, where `KeyboardEvent` defaults `key`
to the empty string) and carries no modifiers DOES match the empty
pattern, so blank patterns do not return false for literally every
event. -/
theorem blank_pattern_cex :
    keyMatch false ⟨[], false, false, false, false⟩ [] = .ok true := by decide

/-- C8: normalizeKey is total (a Lean function), lowercases its input, maps
the space character to `space` and the four arrow labels to
`up`/`down`/`left`/`right`, and passes every other key through lowercased
but otherwise unchanged. -/
theorem normalizeKey_table :
    normalizeKey " ".data = "space".data ∧
    normalizeKey "ArrowUp".data = "up".data ∧
    normalizeKey "ArrowDown".data = "down".data ∧
    normalizeKey "ArrowLeft".data = "left".data ∧
    normalizeKey "ArrowRight".data = "right".data ∧
    ∀ k : List Char,
      toLowerL k ∉ ([" ".data, "arrowup".data, "arrowdown".data,
        "arrowleft".data, "arrowright".data] : List (List Char)) →
      normalizeKey k = toLowerL k := by
  refine ⟨by decide, by decide, by decide, by decide, by decide, ?_⟩
  intro k hk
  simp only [List.mem_cons, List.not_mem_nil, or_false, not_or] at hk
  obtain ⟨h1, h2, h3, h4, h5⟩ := hk
  simp only [normalizeKey, keyMapLookup]
  rw [if_neg h1, if_neg h2, if_neg h3, if_neg h4, if_neg h5]
  rfl

/-- normalizeKey_table applied at the untabled key `Escape`. -/
theorem normalizeKey_table_witness :
    toLowerL "Escape".data ∉ ([" ".data, "arrowup".data, "arrowdown".data,
      "arrowleft".data, "arrowright".data] : List (List Char)) ∧
    normalizeKey "Escape".data = toLowerL "Escape".data :=
  ⟨by decide, normalizeKey_table.2.2.2.2.2 "Escape".data (by decide)⟩

/-- C9: getIsMacOS is a total function of the modelled environment (hence
cannot throw); it returns false when no navigator capability exists at all,
and otherwise reports whether the structured platform descriptor — or, in
its absence, the legacy platform string — contains `MAC` case-insensitively
(a segment whose uppercasing is `MAC`). -/
theorem getIsMacOS_spec :
    getIsMacOS none = false ∧
    ∀ n : JsNavigator,
      (getIsMacOS (some n) = true ↔ ContainsUpperMAC (resolvedPlatform n)) := by
  refine ⟨rfl, ?_⟩
  intro n
  simp only [getIsMacOS, resolvedPlatform]
  exact containsCS_MAC_iff _

/-- C6: modifier resolution starts from all-false flags and accumulates per
token exactly the resolution table: cmd/command set meta; ctrl/control set
ctrl; cmdorctrl/commandorcontrol set meta on Apple and ctrl otherwise; alt
sets alt; option sets alt only on Apple; shift sets shift; meta/super set
meta; every other token is silently ignored. Each final flag is true
exactly when some token sets it. -/
theorem parseModifiers_table (isMac : Bool) (toks : List (List Char)) :
    parseModifiers isMac [] = ⟨false, false, false, false⟩ ∧
    parseModifiers isMac toks =
      ⟨toks.any (ctrlTok isMac), toks.any (altTok isMac),
       toks.any shiftTok, toks.any (metaTok isMac)⟩ :=
  ⟨rfl, parseModifiers_closed isMac toks⟩

/-- C7: modifier resolution is permutation-invariant and idempotent under
token duplication, and the concrete patterns `ctrl+shift+z` and
`shift+ctrl+z` parse identically on either platform. -/
theorem parseModifiers_comm_idem :
    (∀ (isMac : Bool) (l l' : List (List Char)), l.Perm l' →
      parseModifiers isMac l = parseModifiers isMac l') ∧
    (∀ (isMac : Bool) (l₁ l₂ : List (List Char)) (t : List Char),
      parseModifiers isMac (l₁ ++ t :: t :: l₂) =
        parseModifiers isMac (l₁ ++ t :: l₂)) ∧
    (∀ isMac : Bool, parseMatchString isMac "ctrl+shift+z".data =
      parseMatchString isMac "shift+ctrl+z".data) := by
  refine ⟨fun isMac l l' h => parseModifiers_perm isMac h,
    fun isMac l₁ l₂ t => parseModifiers_dup isMac l₁ l₂ t, ?_⟩
  intro isMac
  cases isMac <;> decide

/-- parseModifiers_comm_idem applied at the concrete transposition of
`ctrl` and `shift`. -/
theorem parseModifiers_comm_idem_witness :
    (["ctrl".data, "shift".data] : List (List Char)).Perm
      ["shift".data, "ctrl".data] ∧
    parseModifiers false ["ctrl".data, "shift".data] =
      parseModifiers false ["shift".data, "ctrl".data] :=
  ⟨by decide,
   parseModifiers_comm_idem.1 false ["ctrl".data, "shift".data]
     ["shift".data, "ctrl".data] (by decide)⟩

/-- C5: for every multi-alternative pattern — more than one fragment after
the or-split — whose fragments all carry non-empty terminal keys, the
parsed keys are the fragments' trimmed terminal keys, lowercased, in
fragment order, and the four flags are resolved from the first fragment's
modifier segments only; concretely, `CmdOrCtrl+EnterOrSpace` on a
non-Apple platform matches both Ctrl+Enter and Ctrl+Space. -/
theorem multi_alternative_parse :
    (∀ (isMac : Bool) (s f₀ f₁ : List Char) (fs : List (List Char)),
      fragmentsOf s = f₀ :: f₁ :: fs →
      (∀ f ∈ f₀ :: f₁ :: fs, termKeyOf f ≠ []) →
      parseMatchString isMac s =
        .ok ⟨(parseModifiers isMac (modPartsOf f₀)).ctrl,
             (parseModifiers isMac (modPartsOf f₀)).alt,
             (parseModifiers isMac (modPartsOf f₀)).shift,
             (parseModifiers isMac (modPartsOf f₀)).meta,
             (f₀ :: f₁ :: fs).map termKeyOf⟩) ∧
    keyMatch false ⟨"Enter".data, true, false, false, false⟩
      "CmdOrCtrl+EnterOrSpace".data = .ok true ∧
    keyMatch false ⟨" ".data, true, false, false, false⟩
      "CmdOrCtrl+EnterOrSpace".data = .ok true := by
  refine ⟨?_, by decide, by decide⟩
  intro isMac s f₀ f₁ fs hfr hkeys
  have hb : trimChars s ≠ [] := by
    intro hblank
    have hsingle := fragmentsOf_blank hblank
    rw [hfr] at hsingle
    exact absurd hsingle (by simp)
  rw [parseMatchString_multi isMac hb hfr]
  exact parseMultipleKeyMatch_ok isMac f₀ (f₁ :: fs) hkeys

/-- multi_alternative_parse applied at the concrete pattern
`CmdOrCtrl+EnterOrSpace`, whose fragments after protection, splitting and
restoration are `cmdorctrl+Enter` and `Space`. -/
theorem multi_alternative_parse_witness :
    fragmentsOf "CmdOrCtrl+EnterOrSpace".data =
      ["cmdorctrl+Enter".data, "Space".data] ∧
    (∀ f ∈ (["cmdorctrl+Enter".data, "Space".data] : List (List Char)),
      termKeyOf f ≠ []) ∧
    parseMatchString false "CmdOrCtrl+EnterOrSpace".data =
      .ok ⟨(parseModifiers false (modPartsOf "cmdorctrl+Enter".data)).ctrl,
           (parseModifiers false (modPartsOf "cmdorctrl+Enter".data)).alt,
           (parseModifiers false (modPartsOf "cmdorctrl+Enter".data)).shift,
           (parseModifiers false (modPartsOf "cmdorctrl+Enter".data)).meta,
           (["cmdorctrl+Enter".data, "Space".data] : List (List Char)).map
             termKeyOf⟩ :=
  ⟨by decide, by decide,
   multi_alternative_parse.1 false "CmdOrCtrl+EnterOrSpace".data
     "cmdorctrl+Enter".data "Space".data [] (by decide) (by decide)⟩

/-- C4 counterexample: the splitter cuts at every case-insensitive
occurrence of the substring `or`, not only at the standalone word — the
pattern `fork` is split into fragments `f` and `k`, so the terminal key
`fork` (a non-empty string different from `or`) is unobtainable — and
restoration substitutes the canonical lowercase alias spelling, not the
original spelling: `CmdOrCtrl+N` yields the fragment `cmdorctrl+N`. -/
theorem fragments_split_cex :
    fragmentsOf "fork".data = ["f".data, "k".data] ∧
    fragmentsOf "CmdOrCtrl+N".data = ["cmdorctrl+N".data] := by decide

/-- C4 (amended): on patterns free of the two alias tokens and of the two
internal placeholders, the fragment computation is exactly the
case-insensitive split at every occurrence of the substring `or`: no
fragment contains `or` case-insensitively, and interleaving the fragments
with two-character separators that lowercase to `or` reconstructs the
input; protected aliases are restored into the fragments in canonical
lowercase spelling, as in the concrete `CmdOrCtrl+EnterOrSpace`. -/
theorem fragments_split_characterization :
    (∀ s : List Char,
      containsCI "cmdorctrl".data s = false →
      containsCI "commandorcontrol".data s = false →
      containsCS "__CMDCTRL__".data s = false →
      containsCS "__COMMANDCONTROL__".data s = false →
      fragmentsOf s = splitCIor s ∧
      (∀ f ∈ splitCIor s, containsCI "or".data f = false) ∧
      (∃ seps, seps.length + 1 = (splitCIor s).length ∧
        (∀ sep ∈ seps, toLowerL sep = "or".data) ∧
        joinWith (splitCIor s) seps = s)) ∧
    fragmentsOf "CmdOrCtrl+EnterOrSpace".data =
      ["cmdorctrl+Enter".data, "Space".data] := by
  refine ⟨?_, by decide⟩
  intro s h1 h2 h4 h5
  obtain ⟨hfr, hsub⟩ := fragmentsOf_protect_free h1 h2 h4 h5
  refine ⟨hfr, ?_, ?_⟩
  · intro f hf
    exact splitOrAux_or_free s [] f (by decide) (by trivial) hf
  · obtain ⟨seps, hlen, hor, hjoin⟩ := splitOrAux_join s []
    exact ⟨seps, hlen, hor, by simpa using hjoin⟩

/-- fragments_split_characterization applied at the alias-free pattern
`EnterOrSpace`. -/
theorem fragments_split_characterization_witness :
    containsCI "cmdorctrl".data "EnterOrSpace".data = false ∧
    containsCI "commandorcontrol".data "EnterOrSpace".data = false ∧
    containsCS "__CMDCTRL__".data "EnterOrSpace".data = false ∧
    containsCS "__COMMANDCONTROL__".data "EnterOrSpace".data = false ∧
    (fragmentsOf "EnterOrSpace".data = splitCIor "EnterOrSpace".data ∧
      (∀ f ∈ splitCIor "EnterOrSpace".data,
        containsCI "or".data f = false) ∧
      (∃ seps, seps.length + 1 = (splitCIor "EnterOrSpace".data).length ∧
        (∀ sep ∈ seps, toLowerL sep = "or".data) ∧
        joinWith (splitCIor "EnterOrSpace".data) seps =
          "EnterOrSpace".data)) :=
  ⟨by decide, by decide, by decide, by decide,
   fragments_split_characterization.1 "EnterOrSpace".data
     (by decide) (by decide) (by decide) (by decide)⟩

/-! ## Error characterization and platform independence -/

theorem fragmentsOf_ne_nil (s : List Char) : fragmentsOf s ≠ [] := by
  unfold fragmentsOf splitCIor
  obtain ⟨seps, hlen, -, -⟩ := splitOrAux_join (protectAliases s) []
  intro hnil
  rw [List.map_eq_nil_iff] at hnil
  rw [hnil] at hlen
  simp at hlen

/-- C2 (amended): the single invalid-accelerator error is raised iff the
pattern is not blank and its fragments satisfy the empty-terminal-key
criterion — the sole fragment as written is empty or ends in `'+'`, or
(multi-alternative) some fragment after trimming is empty or ends in
`'+'` — and the raised message carries an offending fragment — one whose
terminal key is empty — as written in the sole-fragment case and trimmed
in the multi-alternative case; in particular `ctrl+` and `+` raise it
with the messages `Invalid accelerator: ctrl+` and
`Invalid accelerator: +`. -/
theorem parse_error_characterization (isMac : Bool) (s : List Char) :
    ((∃ msg, parseMatchString isMac s = .error msg) ↔
      (trimChars s ≠ [] ∧ badFragmentCriterion (fragmentsOf s))) ∧
    (∀ msg, parseMatchString isMac s = .error msg →
      (∃ f, fragmentsOf s = [f] ∧ (f = [] ∨ f.getLast? = some '+') ∧
        msg = invalidMsg f) ∨
      (∃ f ∈ fragmentsOf s,
        (trimChars f = [] ∨ (trimChars f).getLast? = some '+') ∧
        msg = invalidMsg (trimChars f))) ∧
    parseMatchString isMac "ctrl+".data =
      .error "Invalid accelerator: ctrl+".data ∧
    parseMatchString isMac "+".data =
      .error "Invalid accelerator: +".data := by
  have hc1 : parseMatchString isMac "ctrl+".data =
      .error "Invalid accelerator: ctrl+".data := by
    cases isMac <;> decide
  have hc2 : parseMatchString isMac "+".data =
      .error "Invalid accelerator: +".data := by
    cases isMac <;> decide
  by_cases hb : trimChars s = []
  · refine ⟨?_, ?_, hc1, hc2⟩
    · constructor
      · intro ⟨msg, h⟩
        rw [parseMatchString_blank hb] at h
        exact absurd h (by simp)
      · intro ⟨hbne, _⟩
        exact absurd hb hbne
    · intro msg h
      rw [parseMatchString_blank hb] at h
      exact absurd h (by simp)
  · cases hl : fragmentsOf s with
    | nil => exact absurd hl (fragmentsOf_ne_nil s)
    | cons f₀ rest =>
      cases rest with
      | nil =>
        have hps := parseMatchString_single isMac hb hl
        refine ⟨?_, ?_, hc1, hc2⟩
        · rw [hps]
          rw [parseSingleKeyMatch_error_iff]
          unfold badFragmentCriterion
          simp [hb]
        · intro msg h
          rw [hps] at h
          obtain ⟨hmsg, hkey⟩ := parseSingleKeyMatch_error h
          exact Or.inl ⟨f₀, rfl,
            (splitPlus_lastD_eq_nil f₀).mp (toLowerL_eq_nil.mp hkey), hmsg⟩
      | cons f₁ fs =>
        have hps := parseMatchString_multi isMac hb hl
        refine ⟨?_, ?_, hc1, hc2⟩
        · rw [hps]
          unfold parseMultipleKeyMatch
          rw [parseMultipleAux_error_iff]
          unfold badFragmentCriterion
          constructor
          · intro ⟨f, hf, hk⟩
            refine ⟨hb, f, hf, ?_⟩
            rw [← splitPlus_lastD_eq_nil, ← toLowerL_eq_nil]
            exact hk
          · intro ⟨_, f, hf, hcrit⟩
            refine ⟨f, hf, ?_⟩
            unfold termKeyOf
            rw [toLowerL_eq_nil, splitPlus_lastD_eq_nil]
            exact hcrit
        · intro msg h
          rw [hps] at h
          obtain ⟨f, hf, hbad, hm⟩ := parseMultipleAux_error_msg isMac _ _ _ _ _ h
          have hbad2 : (splitPlus (trimChars f)).getLastD [] = [] :=
            toLowerL_eq_nil.mp hbad
          exact Or.inr ⟨f, hf,
            (splitPlus_lastD_eq_nil (trimChars f)).mp hbad2, hm⟩

/-- C2 counterexample: the pattern `"a or x+ "` raises the error although
neither of its fragments — `"a "` and `" x+ "` — is empty, ends in `'+'`,
or is exactly `'+'` as written: the multi-alternative path trims fragments
before checking, and the carried message holds the trimmed fragment. -/
theorem parse_error_cex :
    fragmentsOf "a or x+ ".data = ["a ".data, " x+ ".data] ∧
    (∀ f ∈ (["a ".data, " x+ ".data] : List (List Char)),
      ¬(f = [] ∨ f.getLast? = some '+')) ∧
    parseMatchString false "a or x+ ".data =
      .error "Invalid accelerator: x+".data := by decide

/-- parse_error_characterization's message clause applied at
`"a or x+ "`. -/
theorem parse_error_characterization_witness :
    parseMatchString false "a or x+ ".data =
      .error "Invalid accelerator: x+".data ∧
    ((∃ f, fragmentsOf "a or x+ ".data = [f] ∧
        (f = [] ∨ f.getLast? = some '+') ∧
        "Invalid accelerator: x+".data = invalidMsg f) ∨
      (∃ f ∈ fragmentsOf "a or x+ ".data,
        (trimChars f = [] ∨ (trimChars f).getLast? = some '+') ∧
        "Invalid accelerator: x+".data = invalidMsg (trimChars f))) :=
  ⟨by decide,
   (parse_error_characterization false "a or x+ ".data).2.1
     "Invalid accelerator: x+".data (by decide)⟩

theorem token_ne_special {s g : List Char} (hsub : SubSeg g s)
    (h1 : containsCI "cmdorctrl".data s = false)
    (h2 : containsCI "commandorcontrol".data s = false)
    (h3 : containsCI "option".data s = false) :
    ∀ t ∈ (splitPlus g).dropLast.map toLowerL,
      t ≠ "cmdorctrl".data ∧ t ≠ "commandorcontrol".data ∧
        t ≠ "option".data := by
  intro t ht
  obtain ⟨part, hpart, rfl⟩ := List.mem_map.mp ht
  have hps : SubSeg part s :=
    (splitPlus_subseg (List.dropLast_subset _ hpart)).trans hsub
  refine ⟨?_, ?_, ?_⟩ <;> intro heq <;>
    [rw [containsCI_of_subseg hps heq] at h1;
     rw [containsCI_of_subseg hps heq] at h2;
     rw [containsCI_of_subseg hps heq] at h3] <;> simp_all

theorem parseSingleKeyMatch_indep {f : List Char} (a b : Bool)
    (h : ∀ t ∈ (splitPlus f).dropLast.map toLowerL,
      t ≠ "cmdorctrl".data ∧ t ≠ "commandorcontrol".data ∧
        t ≠ "option".data) :
    parseSingleKeyMatch a f = parseSingleKeyMatch b f := by
  simp only [parseSingleKeyMatch]
  by_cases hk : toLowerL ((splitPlus f).getLastD []) = []
  · rw [if_pos hk, if_pos hk]
  · rw [if_neg hk, if_neg hk, parseModifiers_platform_indep h a b]

theorem parseMultipleAux_indep (a b : Bool) :
    ∀ (l keys : List (List Char)) (m : ModFlags) (first : Bool),
      (∀ f ∈ l, ∀ t ∈ (splitPlus (trimChars f)).dropLast.map toLowerL,
        t ≠ "cmdorctrl".data ∧ t ≠ "commandorcontrol".data ∧
          t ≠ "option".data) →
      parseMultipleAux a l keys m first =
        parseMultipleAux b l keys m first := by
  intro l
  induction l with
  | nil => intro keys m first _; rfl
  | cons f rest ih =>
    intro keys m first h
    simp only [parseMultipleAux]
    by_cases hk : toLowerL ((splitPlus (trimChars f)).getLastD []) = []
    · rw [if_pos hk, if_pos hk]
    · rw [if_neg hk, if_neg hk]
      rw [parseModifiers_platform_indep (h f (by simp)) a b]
      exact ih _ _ _ (fun g hg => h g (by simp [hg]))

theorem parseMatchString_indep {s : List Char} (a b : Bool)
    (h1 : containsCI "cmdorctrl".data s = false)
    (h2 : containsCI "commandorcontrol".data s = false)
    (h3 : containsCI "option".data s = false)
    (h4 : containsCS "__CMDCTRL__".data s = false)
    (h5 : containsCS "__COMMANDCONTROL__".data s = false) :
    parseMatchString a s = parseMatchString b s := by
  by_cases hb : trimChars s = []
  · rw [parseMatchString_blank hb, parseMatchString_blank hb]
  · obtain ⟨hfr, hsub⟩ := fragmentsOf_protect_free h1 h2 h4 h5
    cases hl : fragmentsOf s with
    | nil => exact absurd hl (fragmentsOf_ne_nil s)
    | cons f₀ rest =>
      have hmem : ∀ f ∈ f₀ :: rest, SubSeg f s := by
        have hsp : splitCIor s = f₀ :: rest := by rw [← hfr]; exact hl
        intro f hf
        apply hsub
        rw [hsp]
        exact hf
      cases rest with
      | nil =>
        rw [parseMatchString_single a hb hl, parseMatchString_single b hb hl]
        exact parseSingleKeyMatch_indep a b
          (token_ne_special (hmem f₀ (by simp)) h1 h2 h3)
      | cons f₁ fs =>
        rw [parseMatchString_multi a hb hl, parseMatchString_multi b hb hl]
        unfold parseMultipleKeyMatch
        apply parseMultipleAux_indep
        intro f hf
        exact token_ne_special
          ((trimChars_subseg f).trans (hmem f hf)) h1 h2 h3

/-- C10 (amended): for every pattern containing, case-insensitively, none
of the tokens `cmdorctrl`, `commandorcontrol` or `option` — and not
containing the internal placeholder strings `__CMDCTRL__` or
`__COMMANDCONTROL__`, through which the restoration step can synthesize a
platform-conditional alias token — keyMatch returns the same result on an
Apple platform as on a non-Apple platform, for every event. -/
theorem keyMatch_platform_indep (isMac₁ isMac₂ : Bool) (e : KeyEvent)
    (s : List Char)
    (h1 : containsCI "cmdorctrl".data s = false)
    (h2 : containsCI "commandorcontrol".data s = false)
    (h3 : containsCI "option".data s = false)
    (h4 : containsCS "__CMDCTRL__".data s = false)
    (h5 : containsCS "__COMMANDCONTROL__".data s = false) :
    keyMatch isMac₁ e s = keyMatch isMac₂ e s := by
  unfold keyMatch
  rw [parseMatchString_indep isMac₁ isMac₂ h1 h2 h3 h4 h5]

/-- C10 counterexample: the pattern `__CMDCTRL__+n` contains none of the
three platform-conditional tokens case-insensitively, yet the restoration
step rewrites the placeholder into `cmdorctrl`, so a ctrl-held `n` event
matches on a non-Apple platform and not on an Apple platform. -/
theorem keyMatch_platform_indep_cex :
    containsCI "cmdorctrl".data "__CMDCTRL__+n".data = false ∧
    containsCI "commandorcontrol".data "__CMDCTRL__+n".data = false ∧
    containsCI "option".data "__CMDCTRL__+n".data = false ∧
    keyMatch false ⟨"n".data, true, false, false, false⟩
      "__CMDCTRL__+n".data = .ok true ∧
    keyMatch true ⟨"n".data, true, false, false, false⟩
      "__CMDCTRL__+n".data = .ok false := by decide

/-- keyMatch_platform_indep applied at the alias-free pattern `ctrl+x`. -/
theorem keyMatch_platform_indep_witness :
    containsCI "cmdorctrl".data "ctrl+x".data = false ∧
    containsCI "commandorcontrol".data "ctrl+x".data = false ∧
    containsCI "option".data "ctrl+x".data = false ∧
    containsCS "__CMDCTRL__".data "ctrl+x".data = false ∧
    containsCS "__COMMANDCONTROL__".data "ctrl+x".data = false ∧
    keyMatch true ⟨"x".data, true, false, false, false⟩ "ctrl+x".data =
      keyMatch false ⟨"x".data, true, false, false, false⟩ "ctrl+x".data :=
  ⟨by decide, by decide, by decide, by decide, by decide,
   keyMatch_platform_indep true false ⟨"x".data, true, false, false, false⟩
     "ctrl+x".data (by decide) (by decide) (by decide) (by decide)
     (by decide)⟩
